import Mathlib

/-!
Shallow embedding of `pymc3/distributions/transforms.py` over the reals.

Tensors are modelled as `List ℝ` for the simplex transforms and as `ℝ` for
the elementwise transforms.  The theano primitives used by the source are
transcribed directly: `tt.nnet.sigmoid`, the module-level `logit`,
`tt.extra_ops.cumsum` / `cumprod`, `tt.arctan2`, `tt.concatenate`,
`tt.ones(y[:1].shape)` (a length `min 1 (length y)` block of ones).
-/

set_option autoImplicit false

/-- Transcribes `tt.nnet.sigmoid` (the module-level `inverse_logit`):
`sigmoid x = 1 / (1 + exp (-x))`. -/
noncomputable def sigmoid (x : ℝ) : ℝ := 1 / (1 + Real.exp (-x))

/-- Transcribes the module-level `logit`: `log (x / (1 - x))`. -/
noncomputable def logit (x : ℝ) : ℝ := Real.log (x / (1 - x))

/-- Transcribes `tt.extra_ops.cumsum` along axis 0: running partial sums. -/
def cumsum : List ℝ → List ℝ
  | [] => []
  | a :: l => a :: (cumsum l).map (fun v => a + v)

/-- Transcribes `tt.extra_ops.cumprod` along axis 0: running partial products. -/
def cumprod : List ℝ → List ℝ
  | [] => []
  | a :: l => a :: (cumprod l).map (fun v => a * v)

/-- Transcribes `tt.arctan2 y x`: the angle of the point `(x, y)`, by the
standard four-quadrant case analysis (principal value in `(-π, π]`). -/
noncomputable def arctan2 (y x : ℝ) : ℝ :=
  if 0 < x then Real.arctan (y / x)
  else if x < 0 then
    (if 0 ≤ y then Real.arctan (y / x) + Real.pi else Real.arctan (y / x) - Real.pi)
  else
    (if 0 < y then Real.pi / 2 else if y < 0 then -(Real.pi / 2) else 0)

/-- A base distribution, reduced to the single method the composer calls. -/
structure Distribution (α : Type) where
  logp : α → ℝ

/-- The `Transform` interface: `forward`, `backward`, `jacobian_det`. -/
structure Transform (α : Type) where
  forward : α → α
  backward : α → α
  jacobian_det : α → ℝ

/-- `TransformedDistribution`: the composer's state, a base distribution
`dist` plus the `transform_used`. -/
structure TransformedDistribution (α : Type) where
  dist : Distribution α
  transform_used : Transform α

/-- Transcribes `TransformedDistribution.logp`:
`self.dist.logp(self.transform_used.backward(x)) + self.transform_used.jacobian_det(x)`. -/
def TransformedDistribution.logp {α : Type} (d : TransformedDistribution α) (x : α) : ℝ :=
  d.dist.logp (d.transform_used.backward x) + d.transform_used.jacobian_det x

/-- Modelled from the spec: the external autodiff engine `gradient`
(imported from `theanof`, not part of the source tree).  For a scalar
input, "differentiate `sum (backward y)` with respect to `y`" is the
derivative of `backward` at the point, so the engine is modelled by the
mathematical derivative. -/
noncomputable def theanof.gradient (f : ℝ → ℝ) (x : ℝ) : ℝ := deriv f x

/-- Transcribes `ElemwiseTransform.jacobian_det`:
`tt.log (tt.abs_ (gradient (tt.sum (backward x)) [x]))` (the reshape is the
identity on scalars). -/
noncomputable def ElemwiseTransform.jacobian_det (backward : ℝ → ℝ) (x : ℝ) : ℝ :=
  Real.log |theanof.gradient backward x|

/-- Transcribes `Log.backward`: `tt.exp x`. -/
noncomputable def Log.backward (x : ℝ) : ℝ := Real.exp x

/-- Transcribes `Log.forward`: `tt.log x`. -/
noncomputable def Log.forward (x : ℝ) : ℝ := Real.log x

/-- Transcribes `LogOdds.backward`: `inverse_logit x`. -/
noncomputable def LogOdds.backward (x : ℝ) : ℝ := sigmoid x

/-- Transcribes `LogOdds.forward`: `logit x`. -/
noncomputable def LogOdds.forward (x : ℝ) : ℝ := logit x

/-- Transcribes `Interval.backward`: `(b - a) * tt.exp x / (1 + tt.exp x) + a`. -/
noncomputable def Interval.backward (a b x : ℝ) : ℝ :=
  (b - a) * Real.exp x / (1 + Real.exp x) + a

/-- Transcribes `Interval.forward`: `tt.log ((x - a) / (b - x))`. -/
noncomputable def Interval.forward (a b x : ℝ) : ℝ :=
  Real.log ((x - a) / (b - x))

/-- Transcribes `SumTo1.backward`: `tt.concatenate [y, 1 - tt.sum y]`. -/
def SumTo1.backward (y : List ℝ) : List ℝ := y ++ [1 - y.sum]

/-- Transcribes `SumTo1.forward`: `x[:-1]`. -/
def SumTo1.forward (x : List ℝ) : List ℝ := x.dropLast

/-- Transcribes `SumTo1.jacobian_det`: `return 0`. -/
def SumTo1.jacobian_det (_ : List ℝ) : ℝ := 0

/-- Transcribes the stick-breaking `eq_share = -tt.log (Km1 - k)`. -/
noncomputable def eqShare (Km1 k : ℕ) : ℝ := -Real.log ((Km1 : ℝ) - (k : ℝ))

/-- Transcribes `StickBreaking.forward`: `x0 = x[:-1]`,
`s = cumsum(x0[::-1])[::-1] + x[-1]`, `z = x0 / s`,
`y = logit z - eq_share` with `Km1 = x.shape[0] - 1`, `k = arange Km1`. -/
noncomputable def StickBreaking.forward (x : List ℝ) : List ℝ :=
  List.zipWith (fun k zk => logit zk - eqShare (x.length - 1) k)
    (List.range (x.length - 1))
    (List.zipWith (fun a b => a / b) x.dropLast
      ((cumsum x.dropLast.reverse).reverse.map (fun v => v + x.getLastD 0)))

/-- Transcribes the `z = inverse_logit (y + eq_share)` vector of
`StickBreaking.backward`, with `Km1 = y.shape[0]`, `k = arange Km1`. -/
noncomputable def StickBreaking.z (y : List ℝ) : List ℝ :=
  List.zipWith (fun k yk => sigmoid (yk + eqShare y.length k)) (List.range y.length) y

/-- Transcribes `StickBreaking.backward`:
`yl = concatenate [z, ones (y[:1].shape)]`,
`yu = concatenate [ones (y[:1].shape), 1 - z]`, `S = cumprod yu`, `x = S * yl`. -/
noncomputable def StickBreaking.backward (y : List ℝ) : List ℝ :=
  List.zipWith (fun a b => a * b)
    (cumprod (List.replicate (min 1 y.length) 1 ++
      (StickBreaking.z y).map (fun v => 1 - v)))
    (StickBreaking.z y ++ List.replicate (min 1 y.length) 1)

/-- Transcribes the `yl = y + eq_share` vector of `StickBreaking.jacobian_det`. -/
noncomputable def StickBreaking.yl (y : List ℝ) : List ℝ :=
  List.zipWith (fun k yk => yk + eqShare y.length k) (List.range y.length) y

/-- Transcribes `StickBreaking.jacobian_det`:
`yu = concatenate [ones (y[:1].shape), 1 - inverse_logit yl]`, `S = cumprod yu`,
`sum (log S[:-1] - log1p (exp yl) - log1p (exp (-yl)))`. -/
noncomputable def StickBreaking.jacobian_det (y : List ℝ) : ℝ :=
  (List.zipWith
    (fun s v => Real.log s - Real.log (1 + Real.exp v) - Real.log (1 + Real.exp (-v)))
    (cumprod (List.replicate (min 1 y.length) 1 ++
      (StickBreaking.yl y).map (fun v => 1 - sigmoid v))).dropLast
    (StickBreaking.yl y)).sum

/-- Transcribes `Circular.backward`: `tt.arctan2 (tt.sin y) (tt.cos y)`. -/
noncomputable def Circular.backward (y : ℝ) : ℝ := arctan2 (Real.sin y) (Real.cos y)

/-- Transcribes `Circular.forward`: `return x`. -/
def Circular.forward (x : ℝ) : ℝ := x

/-- Claim C1: the composed log-density is the base log-density at the
pulled-back point plus the transform Jacobian term at the same point. -/
theorem C1_transformed_logp {α : Type} (d : Distribution α) (t : Transform α) (y : α) :
    (TransformedDistribution.mk d t).logp y = d.logp (t.backward y) + t.jacobian_det y :=
  rfl

/-- Claim C7: `SumTo1.jacobian_det` is identically zero, while its forward
map drops the last coordinate. -/
theorem C7_sumto1_zero_jacobian :
    (∀ x : List ℝ, SumTo1.jacobian_det x = 0) ∧
    (∀ x : List ℝ, SumTo1.forward x = x.dropLast) :=
  ⟨fun _ => rfl, fun _ => rfl⟩

lemma one_add_exp_pos (x : ℝ) : 0 < 1 + Real.exp x := by positivity

lemma one_add_exp_ne_zero (x : ℝ) : 1 + Real.exp x ≠ 0 :=
  ne_of_gt (one_add_exp_pos x)

lemma sigmoid_pos (x : ℝ) : 0 < sigmoid x := by
  unfold sigmoid; positivity

lemma sigmoid_lt_one (x : ℝ) : sigmoid x < 1 := by
  unfold sigmoid
  rw [div_lt_one (one_add_exp_pos (-x))]
  linarith [Real.exp_pos (-x)]

lemma one_sub_sigmoid (x : ℝ) :
    1 - sigmoid x = Real.exp (-x) / (1 + Real.exp (-x)) := by
  unfold sigmoid
  field_simp

lemma div_div_cancel_mid (a b c : ℝ) (hb : b ≠ 0) (hc : c ≠ 0) :
    a / c / (b / c) = a / b := by
  field_simp

lemma logit_sigmoid (x : ℝ) : logit (sigmoid x) = x := by
  unfold logit
  rw [one_sub_sigmoid]
  have h1 : (1 : ℝ) + Real.exp (-x) ≠ 0 := one_add_exp_ne_zero (-x)
  have h2 : Real.exp (-x) ≠ 0 := (Real.exp_pos (-x)).ne'
  have hval : sigmoid x / (Real.exp (-x) / (1 + Real.exp (-x))) = Real.exp x := by
    unfold sigmoid
    rw [div_div_cancel_mid 1 (Real.exp (-x)) (1 + Real.exp (-x)) h2 h1]
    rw [one_div, ← Real.exp_neg, neg_neg]
  rw [hval, Real.log_exp]

lemma sigmoid_logit (v : ℝ) (h0 : 0 < v) (h1 : v < 1) : sigmoid (logit v) = v := by
  unfold sigmoid logit
  have hv1 : (0 : ℝ) < 1 - v := by linarith
  have hu : (0 : ℝ) < v / (1 - v) := div_pos h0 hv1
  rw [Real.exp_neg, Real.exp_log hu]
  rw [show (v / (1 - v))⁻¹ = (1 - v) / v from by rw [inv_div]]
  rw [show (1 : ℝ) + (1 - v) / v = 1 / v from by field_simp]
  rw [one_div_one_div]

lemma log_back_fwd {x : ℝ} (hx : 0 < x) : Log.backward (Log.forward x) = x :=
  Real.exp_log hx

lemma log_fwd_back (y : ℝ) : Log.forward (Log.backward y) = y :=
  Real.log_exp y

lemma logodds_back_fwd {x : ℝ} (h0 : 0 < x) (h1 : x < 1) :
    LogOdds.backward (LogOdds.forward x) = x :=
  sigmoid_logit x h0 h1

lemma logodds_fwd_back (y : ℝ) : LogOdds.forward (LogOdds.backward y) = y :=
  logit_sigmoid y

lemma interval_back_fwd {a b x : ℝ} (hax : a < x) (hxb : x < b) :
    Interval.backward a b (Interval.forward a b x) = x := by
  unfold Interval.backward Interval.forward
  have hbx : (0 : ℝ) < b - x := by linarith
  have hxa : (0 : ℝ) < x - a := by linarith
  have hu : (0 : ℝ) < (x - a) / (b - x) := div_pos hxa hbx
  rw [Real.exp_log hu]
  have hden : (1 : ℝ) + (x - a) / (b - x) = (b - a) / (b - x) := by
    field_simp
  have hba : b - a ≠ 0 := by linarith
  have hbx0 : b - x ≠ 0 := ne_of_gt hbx
  rw [hden, ← mul_div_assoc,
    div_div_cancel_mid ((b - a) * (x - a)) (b - a) (b - x) hba hbx0,
    mul_div_cancel_left₀ _ hba, sub_add_cancel]

lemma interval_fwd_back {a b : ℝ} (hab : a < b) (y : ℝ) :
    Interval.forward a b (Interval.backward a b y) = y := by
  unfold Interval.backward Interval.forward
  have hE : (0 : ℝ) < Real.exp y := Real.exp_pos y
  have h1E : (0 : ℝ) < 1 + Real.exp y := one_add_exp_pos y
  have hba : (0 : ℝ) < b - a := by linarith
  have hval : ((b - a) * Real.exp y / (1 + Real.exp y) + a - a) /
      (b - ((b - a) * Real.exp y / (1 + Real.exp y) + a)) = Real.exp y := by
    rw [add_sub_cancel_right]
    have hbb : b - ((b - a) * Real.exp y / (1 + Real.exp y) + a) =
        (b - a) / (1 + Real.exp y) := by
      field_simp
      ring
    have hba0 : b - a ≠ 0 := ne_of_gt hba
    rw [hbb,
      div_div_cancel_mid ((b - a) * Real.exp y) (b - a) (1 + Real.exp y) hba0
        (one_add_exp_ne_zero y),
      mul_div_cancel_left₀ _ hba0]
  rw [hval, Real.log_exp]

lemma interval_backward_mem {a b : ℝ} (hab : a < b) (y : ℝ) :
    Interval.backward a b y ∈ Set.Ioo a b := by
  unfold Interval.backward
  have hE : (0 : ℝ) < Real.exp y := Real.exp_pos y
  have h1E : (0 : ℝ) < 1 + Real.exp y := one_add_exp_pos y
  have hba : (0 : ℝ) < b - a := by linarith
  constructor
  · have : (0 : ℝ) < (b - a) * Real.exp y / (1 + Real.exp y) := by positivity
    linarith
  · have hlt : (b - a) * Real.exp y / (1 + Real.exp y) < b - a := by
      rw [div_lt_iff₀ h1E]
      have : (0 : ℝ) < Real.exp y * (b - a) := by positivity
      nlinarith
    linarith

lemma interval_backward_hasDerivAt (a b y : ℝ) :
    HasDerivAt (Interval.backward a b)
      ((b - a) * Real.exp y / (1 + Real.exp y) ^ 2) y := by
  have h := Real.hasDerivAt_exp y
  have hnum : HasDerivAt (fun x => (b - a) * Real.exp x) ((b - a) * Real.exp y) y :=
    h.const_mul (b - a)
  have hden : HasDerivAt (fun x => 1 + Real.exp x) (Real.exp y) y := h.const_add 1
  have hd0 : (1 : ℝ) + Real.exp y ≠ 0 := one_add_exp_ne_zero y
  have hdiv := (hnum.div hden hd0).add_const a
  have heq : ((b - a) * Real.exp y * (1 + Real.exp y) -
      (b - a) * Real.exp y * Real.exp y) / (1 + Real.exp y) ^ 2 =
      (b - a) * Real.exp y / (1 + Real.exp y) ^ 2 := by
    congr 1
    ring
  rw [heq] at hdiv
  exact hdiv

lemma sigmoid_hasDerivAt (y : ℝ) :
    HasDerivAt sigmoid (sigmoid y * (1 - sigmoid y)) y := by
  have hneg : HasDerivAt (fun x : ℝ => -x) (-1) y := (hasDerivAt_id y).neg
  have hexp : HasDerivAt (fun x : ℝ => Real.exp (-x)) (Real.exp (-y) * (-1)) y :=
    (Real.hasDerivAt_exp (-y)).comp y hneg
  have hden : HasDerivAt (fun x : ℝ => 1 + Real.exp (-x)) (Real.exp (-y) * (-1)) y :=
    hexp.const_add 1
  have hd0 : (1 : ℝ) + Real.exp (-y) ≠ 0 := one_add_exp_ne_zero (-y)
  have h := (hasDerivAt_const y (1 : ℝ)).div hden hd0
  have heq : ((0 : ℝ) * (1 + Real.exp (-y)) - 1 * (Real.exp (-y) * (-1))) /
      (1 + Real.exp (-y)) ^ 2 = sigmoid y * (1 - sigmoid y) := by
    rw [one_sub_sigmoid]
    unfold sigmoid
    field_simp
    ring
  rw [heq] at h
  exact h

lemma logodds_backward_eq : LogOdds.backward = sigmoid := rfl

lemma sigmoid_mul_one_sub_pos (y : ℝ) : 0 < sigmoid y * (1 - sigmoid y) :=
  mul_pos (sigmoid_pos y) (by linarith [sigmoid_lt_one y])

/-- Claim C6: the default elementwise mechanism applied to `Log.backward`
(which is `exp`) yields exactly `y`. -/
theorem C6_log_default_jacobian (y : ℝ) :
    ElemwiseTransform.jacobian_det Log.backward y = y := by
  unfold ElemwiseTransform.jacobian_det theanof.gradient
  have hback : Log.backward = Real.exp := rfl
  rw [hback, Real.deriv_exp, abs_of_pos (Real.exp_pos y), Real.log_exp]

/-- Claim C5: the default elementwise mechanism (autodiff of the backward
map, modelled by the mathematical derivative) agrees with the analytic
closed-form derivatives of `Interval.backward` and `LogOdds.backward`. -/
theorem C5_default_jacobian_matches_analytic (a b : ℝ) (hab : a < b) (y : ℝ) :
    deriv (Interval.backward a b) y = (b - a) * Real.exp y / (1 + Real.exp y) ^ 2 ∧
    ElemwiseTransform.jacobian_det (Interval.backward a b) y =
      Real.log ((b - a) * Real.exp y / (1 + Real.exp y) ^ 2) ∧
    deriv LogOdds.backward y = sigmoid y * (1 - sigmoid y) ∧
    ElemwiseTransform.jacobian_det LogOdds.backward y =
      Real.log (sigmoid y * (1 - sigmoid y)) := by
  have hba : (0 : ℝ) < b - a := by linarith
  have hint := (interval_backward_hasDerivAt a b y).deriv
  have hintpos : (0 : ℝ) < (b - a) * Real.exp y / (1 + Real.exp y) ^ 2 := by
    have := Real.exp_pos y
    have := one_add_exp_pos y
    positivity
  have hsig : deriv LogOdds.backward y = sigmoid y * (1 - sigmoid y) := by
    rw [logodds_backward_eq]
    exact (sigmoid_hasDerivAt y).deriv
  refine ⟨hint, ?_, hsig, ?_⟩
  · unfold ElemwiseTransform.jacobian_det theanof.gradient
    rw [hint, abs_of_pos hintpos]
  · unfold ElemwiseTransform.jacobian_det theanof.gradient
    rw [hsig, abs_of_pos (sigmoid_mul_one_sub_pos y)]

/-- Concrete instantiation of `C5_default_jacobian_matches_analytic`. -/
theorem C5_witness :
    (0 : ℝ) < 1 ∧
    (deriv (Interval.backward 0 1) 0 =
        (1 - 0) * Real.exp 0 / (1 + Real.exp 0) ^ 2 ∧
      ElemwiseTransform.jacobian_det (Interval.backward 0 1) 0 =
        Real.log ((1 - 0) * Real.exp 0 / (1 + Real.exp 0) ^ 2) ∧
      deriv LogOdds.backward 0 = sigmoid 0 * (1 - sigmoid 0) ∧
      ElemwiseTransform.jacobian_det LogOdds.backward 0 =
        Real.log (sigmoid 0 * (1 - sigmoid 0))) :=
  ⟨by norm_num, C5_default_jacobian_matches_analytic 0 1 (by norm_num) 0⟩

lemma arctan2_sin_cos {θ : ℝ} (h1 : -Real.pi < θ) (h2 : θ ≤ Real.pi) :
    arctan2 (Real.sin θ) (Real.cos θ) = θ := by
  have hpi := Real.pi_pos
  rcases lt_trichotomy 0 (Real.cos θ) with hc | hc | hc
  · -- cos θ > 0 : θ is in the open interval (-π/2, π/2)
    have hlt2 : θ < Real.pi / 2 := by
      by_contra hge
      push_neg at hge
      have : Real.cos θ ≤ 0 :=
        Real.cos_nonpos_of_pi_div_two_le_of_le hge (by linarith)
      linarith
    have hlt1 : -(Real.pi / 2) < θ := by
      by_contra hge
      push_neg at hge
      have hneg : Real.cos (-θ) ≤ 0 :=
        Real.cos_nonpos_of_pi_div_two_le_of_le (by linarith) (by linarith)
      rw [Real.cos_neg] at hneg
      linarith
    unfold arctan2
    rw [if_pos hc, ← Real.tan_eq_sin_div_cos]
    exact Real.arctan_tan hlt1 hlt2
  · -- cos θ = 0 : θ = π/2 or θ = -π/2
    obtain ⟨n, hn⟩ := Real.cos_eq_zero_iff.mp hc.symm
    have hn0 : n = 0 ∨ n = -1 := by
      have hub : ((2 * n + 1 : ℤ) : ℝ) ≤ 2 := by
        rw [hn] at h2
        have h2' : (2 * (n : ℝ) + 1) * Real.pi ≤ 2 * Real.pi := by linarith
        have := le_of_mul_le_mul_right (by linarith [h2'] : (2 * (n : ℝ) + 1) * Real.pi ≤ 2 * Real.pi) hpi
        push_cast
        linarith [this]
      have hlb : (-2 : ℝ) < ((2 * n + 1 : ℤ) : ℝ) := by
        rw [hn] at h1
        have h1' : -(2 * Real.pi) < (2 * (n : ℝ) + 1) * Real.pi := by linarith
        have := lt_of_mul_lt_mul_right (by linarith [h1'] : (-2) * Real.pi < (2 * (n : ℝ) + 1) * Real.pi) hpi.le
        push_cast
        linarith [this]
      have hub' : (2 * n + 1 : ℤ) ≤ 2 := by exact_mod_cast hub
      have hlb' : (-2 : ℤ) < 2 * n + 1 := by exact_mod_cast hlb
      omega
    rcases hn0 with h | h
    · subst h
      have hθ : θ = Real.pi / 2 := by
        rw [hn]
        push_cast
        ring
      rw [hθ, Real.sin_pi_div_two, Real.cos_pi_div_two]
      unfold arctan2
      norm_num
    · subst h
      have hθ : θ = -(Real.pi / 2) := by
        rw [hn]
        push_cast
        ring
      rw [hθ, Real.sin_neg, Real.cos_neg, Real.sin_pi_div_two, Real.cos_pi_div_two]
      unfold arctan2
      norm_num [hpi]
  · -- cos θ < 0 : split on the sign of sin θ
    rcases le_or_lt 0 (Real.sin θ) with hs | hs
    · -- upper half: π/2 < θ ≤ π
      have hgt : Real.pi / 2 < θ := by
        by_contra hle
        push_neg at hle
        rcases le_or_lt (-(Real.pi / 2)) θ with hge | hlt
        · have : 0 ≤ Real.cos θ :=
            Real.cos_nonneg_of_mem_Icc ⟨hge, hle⟩
          linarith
        · have : Real.sin θ < 0 :=
            Real.sin_neg_of_neg_of_neg_pi_lt (by linarith) h1
          linarith
      unfold arctan2
      rw [if_neg (by linarith : ¬ 0 < Real.cos θ), if_pos hc, if_pos hs]
      rw [← Real.tan_eq_sin_div_cos]
      have htan : Real.tan θ = Real.tan (θ - Real.pi) :=
        (Real.tan_periodic.sub_eq θ).symm
      rw [htan, Real.arctan_tan (by linarith) (by linarith)]
      ring
    · -- lower half: -π < θ < -π/2
      have hlt : θ < -(Real.pi / 2) := by
        by_contra hge
        push_neg at hge
        rcases le_or_lt θ (Real.pi / 2) with hle | hgt
        · have : 0 ≤ Real.cos θ :=
            Real.cos_nonneg_of_mem_Icc ⟨hge, hle⟩
          linarith
        · have : 0 ≤ Real.sin θ :=
            Real.sin_nonneg_of_nonneg_of_le_pi (by linarith) h2
          linarith
      unfold arctan2
      rw [if_neg (by linarith : ¬ 0 < Real.cos θ), if_pos hc,
        if_neg (by linarith : ¬ 0 ≤ Real.sin θ)]
      rw [← Real.tan_eq_sin_div_cos]
      have htan : Real.tan θ = Real.tan (θ + Real.pi) :=
        (Real.tan_periodic θ).symm
      rw [htan, Real.arctan_tan (by linarith) (by linarith)]
      ring

lemma circular_backward_mem_Ioc (y : ℝ) :
    Circular.backward y ∈ Set.Ioc (-Real.pi) Real.pi := by
  have hmem := toIocMod_mem_Ioc Real.two_pi_pos (-Real.pi) y
  set θ := toIocMod Real.two_pi_pos (-Real.pi) y with hθ
  have hmem' : θ ∈ Set.Ioc (-Real.pi) Real.pi := by
    have : -Real.pi + 2 * Real.pi = Real.pi := by ring
    rwa [this] at hmem
  have hy : θ + toIocDiv Real.two_pi_pos (-Real.pi) y • (2 * Real.pi) = y :=
    toIocMod_add_toIocDiv_zsmul Real.two_pi_pos (-Real.pi) y
  have hsin : Real.sin y = Real.sin θ := by
    rw [← hy, zsmul_eq_mul, Real.sin_add_int_mul_two_pi]
  have hcos : Real.cos y = Real.cos θ := by
    rw [← hy, zsmul_eq_mul, Real.cos_add_int_mul_two_pi]
  unfold Circular.backward
  rw [hsin, hcos, arctan2_sin_cos hmem'.1 hmem'.2]
  exact hmem'

lemma circular_roundtrip {x : ℝ} (h1 : -Real.pi < x) (h2 : x ≤ Real.pi) :
    Circular.backward (Circular.forward x) = x :=
  arctan2_sin_cos h1 h2

/-- Claim C8: `Circular.backward` wraps every input into `(-π, π]`, with
`backward (3 * π) = π` and `backward 0 = 0`. -/
theorem C8_circular_wrap :
    (∀ y : ℝ, Circular.backward y ∈ Set.Ioc (-Real.pi) Real.pi) ∧
    Circular.backward (3 * Real.pi) = Real.pi ∧
    Circular.backward 0 = 0 := by
  refine ⟨circular_backward_mem_Ioc, ?_, ?_⟩
  · unfold Circular.backward
    have h3 : (3 : ℝ) * Real.pi = Real.pi + 2 * Real.pi := by ring
    rw [h3, Real.sin_add_two_pi, Real.cos_add_two_pi, Real.sin_pi, Real.cos_pi]
    unfold arctan2
    norm_num [Real.arctan_zero]
  · unfold Circular.backward
    rw [Real.sin_zero, Real.cos_zero]
    unfold arctan2
    norm_num [Real.arctan_zero]

/-- Claim C10: the backward maps land inside the declared constrained
domains: `sigmoid` in `(0,1)`, the interval map in `(a,b)` for `a < b`,
and the circular wrap in `[-π, π]`. -/
theorem C10_backward_ranges :
    (∀ y : ℝ, LogOdds.backward y ∈ Set.Ioo (0 : ℝ) 1) ∧
    (∀ a b y : ℝ, a < b → Interval.backward a b y ∈ Set.Ioo a b) ∧
    (∀ y : ℝ, Circular.backward y ∈ Set.Icc (-Real.pi) Real.pi) := by
  refine ⟨fun y => ⟨sigmoid_pos y, sigmoid_lt_one y⟩,
    fun a b y hab => interval_backward_mem hab y,
    fun y => ?_⟩
  have h := circular_backward_mem_Ioc y
  exact ⟨le_of_lt h.1, h.2⟩

/-- Concrete instantiation of `C10_backward_ranges`. -/
theorem C10_witness :
    (0 : ℝ) < 1 ∧ Interval.backward 0 1 0 ∈ Set.Ioo (0 : ℝ) 1 :=
  ⟨by norm_num, C10_backward_ranges.2.1 0 1 0 (by norm_num)⟩

lemma cumsum_length (l : List ℝ) : (cumsum l).length = l.length := by
  induction l with
  | nil => rfl
  | cons a t ih => simp [cumsum, ih]

lemma cumprod_length (l : List ℝ) : (cumprod l).length = l.length := by
  induction l with
  | nil => rfl
  | cons a t ih => simp [cumprod, ih]

lemma cumsum_append_singleton (m : List ℝ) (v : ℝ) :
    cumsum (m ++ [v]) = cumsum m ++ [m.sum + v] := by
  induction m with
  | nil => simp [cumsum]
  | cons b m' ih =>
      simp only [List.cons_append, cumsum, List.append_eq]
      rw [ih, List.map_append]
      simp [add_assoc]

lemma getD_map_of_lt (f : ℝ → ℝ) (l : List ℝ) (k : ℕ) (d d' : ℝ)
    (h : k < l.length) : (l.map f).getD k d = f (l.getD k d') := by
  induction l generalizing k with
  | nil => simp at h
  | cons a t ih =>
      cases k with
      | zero => simp
      | succ n =>
          simp only [List.map_cons, List.getD_cons_succ]
          exact ih n (Nat.lt_of_succ_lt_succ h)

lemma getD_zipWith_of_lt (f : ℝ → ℝ → ℝ) (l₁ l₂ : List ℝ) (k : ℕ) (d d₁ d₂ : ℝ)
    (h₁ : k < l₁.length) (h₂ : k < l₂.length) :
    (List.zipWith f l₁ l₂).getD k d = f (l₁.getD k d₁) (l₂.getD k d₂) := by
  induction l₁ generalizing l₂ k with
  | nil => simp at h₁
  | cons a t ih =>
      cases l₂ with
      | nil => simp at h₂
      | cons b u =>
          cases k with
          | zero => simp
          | succ n =>
              simp only [List.zipWith_cons_cons, List.getD_cons_succ]
              exact ih u n (Nat.lt_of_succ_lt_succ h₁) (Nat.lt_of_succ_lt_succ h₂)

lemma getD_nat_zipWith_of_lt (f : ℕ → ℝ → ℝ) (l₁ : List ℕ) (l₂ : List ℝ) (k : ℕ)
    (d : ℝ) (d₁ : ℕ) (d₂ : ℝ) (h₁ : k < l₁.length) (h₂ : k < l₂.length) :
    (List.zipWith f l₁ l₂).getD k d = f (l₁.getD k d₁) (l₂.getD k d₂) := by
  induction l₁ generalizing l₂ k with
  | nil => simp at h₁
  | cons a t ih =>
      cases l₂ with
      | nil => simp at h₂
      | cons b u =>
          cases k with
          | zero => simp
          | succ n =>
              simp only [List.zipWith_cons_cons, List.getD_cons_succ]
              exact ih u n (Nat.lt_of_succ_lt_succ h₁) (Nat.lt_of_succ_lt_succ h₂)

lemma getD_range_of_lt (n k : ℕ) (d : ℕ) (h : k < n) :
    (List.range n).getD k d = k := by
  have h' : k < (List.range n).length := by simpa using h
  rw [List.getD_eq_getElem _ _ h']
  apply List.getElem_range

lemma getD_dropLast_of_lt (l : List ℝ) (k : ℕ) (d : ℝ)
    (h : k < l.length - 1) : l.dropLast.getD k d = l.getD k d := by
  have h1 : k < l.dropLast.length := by
    simpa using h
  have h2 : k < l.length := lt_of_lt_of_le h (Nat.sub_le _ _)
  rw [List.getD_eq_getElem _ _ h1, List.getD_eq_getElem _ _ h2]
  exact List.getElem_dropLast l k h1

lemma sum_eq_range_getD (l : List ℝ) :
    l.sum = ∑ k ∈ Finset.range l.length, l.getD k 0 := by
  induction l with
  | nil => simp
  | cons a t ih =>
      rw [List.sum_cons, ih, List.length_cons, Finset.sum_range_succ']
      simp only [List.getD_cons_succ, List.getD_cons_zero]
      exact add_comm _ _

lemma cumprod_getD_of_lt (l : List ℝ) (k : ℕ) (h : k < l.length) :
    (cumprod l).getD k 0 = ∏ j ∈ Finset.range (k + 1), l.getD j 0 := by
  induction l generalizing k with
  | nil => simp at h
  | cons a t ih =>
      cases k with
      | zero => simp [cumprod]
      | succ n =>
          have hn : n < t.length := Nat.lt_of_succ_lt_succ h
          have hn' : n < (cumprod t).length := by rwa [cumprod_length]
          simp only [cumprod, List.getD_cons_succ]
          rw [getD_map_of_lt _ _ _ _ 0 hn', ih n hn]
          conv_rhs => rw [Finset.prod_range_succ']
          simp only [List.getD_cons_succ, List.getD_cons_zero]
          exact mul_comm _ _

lemma yl_length (y : List ℝ) : (StickBreaking.yl y).length = y.length := by
  simp [StickBreaking.yl]

lemma z_length (y : List ℝ) : (StickBreaking.z y).length = y.length := by
  simp [StickBreaking.z]

/-- The spec's offset logit value: `z'_k = y_k - log (K - 1 - k)` where
`K - 1` is the length of `y`. -/
noncomputable def StickBreaking.zsh (y : List ℝ) (k : ℕ) : ℝ :=
  y.getD k 0 - Real.log ((y.length : ℝ) - (k : ℝ))

/-- The spec's closed form for the stick-breaking log-abs-det-Jacobian:
`sum over k of [log S_k - log (1 + exp z'_k) - log (1 + exp (-z'_k))]` with
`S_k` the cumulative product of the remaining-stick factors
`1 - sigmoid (z'_j)` for `j < k` (so `S_0 = 1`). -/
noncomputable def StickBreaking.jacobianDetSpec (y : List ℝ) : ℝ :=
  ∑ k ∈ Finset.range y.length,
    (Real.log (∏ j ∈ Finset.range k, (1 - sigmoid (StickBreaking.zsh y j))) -
      Real.log (1 + Real.exp (StickBreaking.zsh y k)) -
      Real.log (1 + Real.exp (-StickBreaking.zsh y k)))

lemma yl_getD (y : List ℝ) (k : ℕ) (hk : k < y.length) :
    (StickBreaking.yl y).getD k 0 = StickBreaking.zsh y k := by
  unfold StickBreaking.yl
  rw [getD_nat_zipWith_of_lt _ _ _ _ 0 0 0 (by simpa using hk) hk]
  rw [getD_range_of_lt _ _ _ hk]
  unfold eqShare StickBreaking.zsh
  ring

/-- Claim C3: the transcription of `StickBreaking.jacobian_det` equals the
spec's closed-form sum. -/
theorem C3_stickbreaking_jacobian_closed_form (y : List ℝ) :
    StickBreaking.jacobian_det y = StickBreaking.jacobianDetSpec y := by
  rcases y.eq_nil_or_concat with hnil | ⟨_, _, hcon⟩
  · subst hnil
    simp [StickBreaking.jacobian_det, StickBreaking.jacobianDetSpec,
      StickBreaking.yl, cumprod]
  · have hn : 1 ≤ y.length := by
      subst hcon
      simp
    have hmin : min 1 y.length = 1 := min_eq_left hn
    unfold StickBreaking.jacobian_det
    rw [hmin, List.replicate_one, List.singleton_append]
    set w : List ℝ := (StickBreaking.yl y).map (fun v => 1 - sigmoid v) with hw
    have hwlen : w.length = y.length := by
      rw [hw, List.length_map, yl_length]
    have hSlen : (cumprod ((1 : ℝ) :: w)).length = y.length + 1 := by
      rw [cumprod_length, List.length_cons, hwlen]
    have hSdrop : (cumprod ((1 : ℝ) :: w)).dropLast.length = y.length := by
      rw [List.length_dropLast, hSlen]
      rfl
    have hziplen :
        (List.zipWith
          (fun s v => Real.log s - Real.log (1 + Real.exp v) -
            Real.log (1 + Real.exp (-v)))
          (cumprod ((1 : ℝ) :: w)).dropLast (StickBreaking.yl y)).length = y.length := by
      rw [List.length_zipWith, hSdrop, yl_length, min_self]
    rw [sum_eq_range_getD, hziplen]
    unfold StickBreaking.jacobianDetSpec
    refine Finset.sum_congr rfl ?_
    intro k hk
    rw [Finset.mem_range] at hk
    rw [getD_zipWith_of_lt _ _ _ _ _ 0 0 (by rw [hSdrop]; exact hk)
      (by rw [yl_length]; exact hk)]
    rw [getD_dropLast_of_lt _ _ _ (by rw [hSlen]; simpa using hk)]
    rw [cumprod_getD_of_lt _ _ (by rw [List.length_cons, hwlen]; exact Nat.lt_succ_of_lt hk)]
    rw [yl_getD y k hk]
    have hprod : ∏ j ∈ Finset.range (k + 1), ((1 : ℝ) :: w).getD j 0 =
        ∏ j ∈ Finset.range k, (1 - sigmoid (StickBreaking.zsh y j)) := by
      rw [Finset.prod_range_succ']
      simp only [List.getD_cons_succ, List.getD_cons_zero, mul_one]
      refine Finset.prod_congr rfl ?_
      intro j hj
      rw [Finset.mem_range] at hj
      have hjn : j < y.length := lt_trans hj hk
      rw [hw, getD_map_of_lt _ _ _ _ 0 (by rw [yl_length]; exact hjn)]
      rw [yl_getD y j hjn]
    rw [hprod]

/-- The stick-breaking reconstruction with an explicit leading stick `c`:
`zipWith mul (cumprod (c :: map (1 - z) zs)) (zs ++ [1])`.  With `c = 1`
this is exactly the body of `StickBreaking.backward` on a nonempty input. -/
noncomputable def sbT (c : ℝ) (zs : List ℝ) : List ℝ :=
  List.zipWith (fun a b => a * b) (cumprod (c :: zs.map (fun v => 1 - v))) (zs ++ [1])

lemma backward_nil : StickBreaking.backward [] = [] := by
  simp [StickBreaking.backward, StickBreaking.z, cumprod]

lemma backward_eq_sbT (y : List ℝ) (hy : y ≠ []) :
    StickBreaking.backward y = sbT 1 (StickBreaking.z y) := by
  have h1 : min 1 y.length = 1 :=
    min_eq_left (List.length_pos.mpr hy)
  unfold StickBreaking.backward sbT
  rw [h1, List.replicate_one, List.singleton_append]

lemma cumprod_cons (a : ℝ) (l : List ℝ) :
    cumprod (a :: l) = a :: (cumprod l).map (fun v => a * v) := rfl

lemma cumprod_smul (c d : ℝ) (w : List ℝ) :
    cumprod (c * d :: w) = (cumprod (d :: w)).map (fun v => c * v) := by
  simp only [cumprod, List.map_cons, List.map_map]
  congr 1
  refine List.map_congr_left ?_
  intro v _
  simp only [Function.comp_apply]
  ring

lemma zipWith_mul_map_left (c : ℝ) (l r : List ℝ) :
    List.zipWith (fun a b => a * b) (l.map (fun v => c * v)) r =
    (List.zipWith (fun a b => a * b) l r).map (fun v => c * v) := by
  rw [List.zipWith_map_left, List.map_zipWith]
  congr 1
  funext a b
  ring

lemma sbT_smul (c d : ℝ) (zs : List ℝ) :
    sbT (c * d) zs = (sbT d zs).map (fun v => c * v) := by
  unfold sbT
  rw [cumprod_smul, zipWith_mul_map_left]

lemma sbT_cons (c v : ℝ) (zs : List ℝ) :
    sbT c (v :: zs) = (c * v) :: sbT (c * (1 - v)) zs := by
  unfold sbT
  simp only [List.map_cons, List.cons_append]
  rw [cumprod_cons, List.zipWith_cons_cons]
  congr 1
  rw [cumprod_smul, zipWith_mul_map_left]

lemma sbT_length (c : ℝ) (zs : List ℝ) : (sbT c zs).length = zs.length + 1 := by
  unfold sbT
  rw [List.length_zipWith, cumprod_length]
  simp

lemma sbT_ne_nil (c : ℝ) (zs : List ℝ) : sbT c zs ≠ [] := by
  intro h
  have := sbT_length c zs
  rw [h] at this
  simp at this

lemma sbT_sum (c : ℝ) (zs : List ℝ) : (sbT c zs).sum = c := by
  induction zs generalizing c with
  | nil => simp [sbT, cumprod]
  | cons v t ih =>
      rw [sbT_cons, List.sum_cons, ih]
      ring

lemma sumto1_backward_sum (y : List ℝ) : (SumTo1.backward y).sum = 1 := by
  simp [SumTo1.backward]

lemma stickbreaking_backward_sum {y : List ℝ} (hy : y ≠ []) :
    (StickBreaking.backward y).sum = 1 := by
  rw [backward_eq_sbT y hy, sbT_sum]

/-- Counterexample to claim C9 as stated: on the empty unconstrained vector
(`K = 1`), `StickBreaking.backward` returns the empty list (the code uses
`ones (y[:1].shape)`, which is empty there), whose sum is `0`, not `1`. -/
theorem C9_counterexample : (StickBreaking.backward ([] : List ℝ)).sum ≠ 1 := by
  rw [backward_nil]
  simp

/-- Claim C9 (amended: the stick-breaking part requires a nonempty `y`):
`SumTo1.backward` always sums to 1, and `StickBreaking.backward` sums to 1
for every nonempty real input. -/
theorem C9_backward_sums_to_one :
    (∀ y : List ℝ, (SumTo1.backward y).sum = 1) ∧
    (∀ y : List ℝ, y ≠ [] → (StickBreaking.backward y).sum = 1) :=
  ⟨sumto1_backward_sum, fun _ hy => stickbreaking_backward_sum hy⟩

/-- Concrete instantiation of `C9_backward_sums_to_one`. -/
theorem C9_witness :
    ([(0 : ℝ)] ≠ []) ∧ (StickBreaking.backward [(0 : ℝ)]).sum = 1 :=
  ⟨by simp, C9_backward_sums_to_one.2 [0] (by simp)⟩

lemma eqShare_succ_succ (n k : ℕ) : eqShare (n + 1) (k + 1) = eqShare n k := by
  unfold eqShare
  congr 2
  push_cast
  ring

lemma zipWith_nat_congr (f g : ℕ → ℝ → ℝ) (l₁ : List ℕ) (l₂ : List ℝ)
    (h : ∀ k v, f k v = g k v) :
    List.zipWith f l₁ l₂ = List.zipWith g l₁ l₂ := by
  have hfg : f = g := funext fun k => funext fun v => h k v
  rw [hfg]

lemma z_nil : StickBreaking.z [] = [] := by
  simp [StickBreaking.z]

lemma z_cons (a : ℝ) (t : List ℝ) :
    StickBreaking.z (a :: t) =
      sigmoid (a + eqShare (t.length + 1) 0) :: StickBreaking.z t := by
  unfold StickBreaking.z
  simp only [List.length_cons]
  rw [List.range_succ_eq_map, List.zipWith_cons_cons, List.zipWith_map_left]
  congr 1
  exact zipWith_nat_congr _ _ _ _ (fun k v => by
    show sigmoid (v + eqShare (t.length + 1) (Nat.succ k)) =
      sigmoid (v + eqShare t.length k)
    rw [show Nat.succ k = k + 1 from rfl, eqShare_succ_succ])

lemma forward_nil : StickBreaking.forward [] = [] := rfl

lemma forward_singleton (a : ℝ) : StickBreaking.forward [a] = [] := rfl

lemma forward_length (x : List ℝ) :
    (StickBreaking.forward x).length = x.length - 1 := by
  unfold StickBreaking.forward
  rw [List.length_zipWith, List.length_range, List.length_zipWith,
    List.length_dropLast, List.length_map, List.length_reverse, cumsum_length,
    List.length_reverse, List.length_dropLast]
  omega

lemma sufSums_cons (a : ℝ) (t : List ℝ) (c : ℝ) :
    (cumsum (a :: t).reverse).reverse.map (fun v => v + c) =
      (t.sum + a + c) :: (cumsum t.reverse).reverse.map (fun v => v + c) := by
  rw [List.reverse_cons, cumsum_append_singleton, List.reverse_append]
  simp [List.sum_reverse]

lemma dropLast_sum_add_getLastD :
    ∀ (l : List ℝ), l ≠ [] → l.dropLast.sum + l.getLastD 0 = l.sum
  | [], h => absurd rfl h
  | [a], _ => by simp
  | a :: b :: t, _ => by
      have ih := dropLast_sum_add_getLastD (b :: t) (by simp)
      have hd : (a :: b :: t).dropLast = a :: (b :: t).dropLast := rfl
      have hl : (a :: b :: t).getLastD 0 = (b :: t).getLastD 0 := by
        rw [List.getLastD_cons, List.getLastD_cons, List.getLastD_cons]
      rw [hd, hl, List.sum_cons, List.sum_cons, add_assoc, ih]

lemma forward_cons_cons (a b : ℝ) (t : List ℝ) :
    StickBreaking.forward (a :: b :: t) =
      (logit (a / (a :: b :: t).sum) - eqShare (t.length + 1) 0) ::
        StickBreaking.forward (b :: t) := by
  unfold StickBreaking.forward
  have hdrop : (a :: b :: t).dropLast = a :: (b :: t).dropLast := rfl
  have hlen : (a :: b :: t).length - 1 = t.length + 1 := by simp
  have hlen2 : (b :: t).length - 1 = t.length := by simp
  have hlast : (a :: b :: t).getLastD 0 = (b :: t).getLastD 0 := by
    rw [List.getLastD_cons, List.getLastD_cons, List.getLastD_cons]
  rw [hdrop, hlen, hlen2, hlast, sufSums_cons]
  have hs : (b :: t).dropLast.sum + a + (b :: t).getLastD 0 = (a :: b :: t).sum := by
    rw [List.sum_cons, ← dropLast_sum_add_getLastD (b :: t) (by simp)]
    ring
  rw [hs, List.zipWith_cons_cons, List.range_succ_eq_map, List.zipWith_cons_cons,
    List.zipWith_map_left]
  congr 1
  exact zipWith_nat_congr _ _ _ _ (fun k v => by
    show logit v - eqShare (t.length + 1) (Nat.succ k) = logit v - eqShare t.length k
    rw [show Nat.succ k = k + 1 from rfl, eqShare_succ_succ])

lemma sum_map_mul (c : ℝ) (l : List ℝ) :
    (l.map (fun v => c * v)).sum = c * l.sum := by
  induction l with
  | nil => simp
  | cons a t ih => simp [ih, mul_add]

lemma forward_map_smul :
    ∀ (x : List ℝ) (c : ℝ), c ≠ 0 →
      StickBreaking.forward (x.map (fun v => c * v)) = StickBreaking.forward x
  | [], _, _ => by rw [List.map_nil]
  | [a], c, _ => by
      rw [List.map_cons, List.map_nil, forward_singleton, forward_singleton]
  | a :: b :: t, c, hc => by
      have ih := forward_map_smul (b :: t) c hc
      have htail : StickBreaking.forward ((c * b) :: t.map (fun v => c * v)) =
          StickBreaking.forward (b :: t) := ih
      have hsum : ((c * a) :: (c * b) :: t.map (fun v => c * v)).sum =
          c * (a :: b :: t).sum := by
        rw [List.sum_cons, List.sum_cons, List.sum_cons, List.sum_cons, sum_map_mul]
        ring
      rw [List.map_cons, List.map_cons, forward_cons_cons, forward_cons_cons,
        htail, List.length_map, hsum, mul_div_mul_left a ((a :: b :: t).sum) hc]

lemma sbT_z_forward :
    ∀ (x : List ℝ), (∀ v ∈ x, 0 < v) → ∀ c : ℝ,
      x ≠ [] →
      sbT c (StickBreaking.z (StickBreaking.forward x)) =
        x.map (fun v => c / x.sum * v)
  | [], _, _, hne => absurd rfl hne
  | [a], hpos, c, _ => by
      have ha : a ≠ 0 := ne_of_gt (hpos a (by simp))
      rw [forward_singleton, z_nil]
      show List.zipWith (fun a b => a * b) (cumprod [c]) [1] = [c / [a].sum * a]
      simp [cumprod, div_mul_cancel₀, ha]
  | a :: b :: t, hpos, c, _ => by
      have ha : 0 < a := hpos a (by simp)
      have hbt : 0 < (b :: t).sum :=
        List.sum_pos (b :: t) (fun v hv => hpos v (List.mem_cons_of_mem a hv))
          (by simp)
      have hS : 0 < (a :: b :: t).sum := by
        rw [List.sum_cons]
        linarith
      have haS : 0 < a / (a :: b :: t).sum := div_pos ha hS
      have haS1 : a / (a :: b :: t).sum < 1 := by
        rw [div_lt_one hS, List.sum_cons]
        linarith
      have ih := sbT_z_forward (b :: t) (fun v hv => hpos v (List.mem_cons_of_mem a hv))
        (c * (1 - a / (a :: b :: t).sum)) (by simp)
      rw [forward_cons_cons, z_cons, forward_length]
      have hlen : (b :: t).length - 1 + 1 = t.length + 1 := by simp
      rw [hlen]
      have hhead : logit (a / (a :: b :: t).sum) - eqShare (t.length + 1) 0 +
          eqShare (t.length + 1) 0 = logit (a / (a :: b :: t).sum) := by ring
      rw [hhead, sigmoid_logit _ haS haS1, sbT_cons, ih]
      have hone : (1 : ℝ) - a / (a :: b :: t).sum = (b :: t).sum / (a :: b :: t).sum := by
        rw [List.sum_cons]
        have hS' := hS
        rw [List.sum_cons] at hS'
        have h2 : a + (b :: t).sum ≠ 0 := ne_of_gt hS'
        have h3 : a / (a + (b :: t).sum) + (b :: t).sum / (a + (b :: t).sum) = 1 := by
          rw [div_add_div_same, div_self h2]
        linarith
      conv_rhs => rw [List.map_cons]
      congr 1
      · ring
      · refine List.map_congr_left ?_
        intro v _
        have hTne : (b :: t).sum ≠ 0 := ne_of_gt hbt
        have hcoef : c * ((b :: t).sum / (a :: b :: t).sum) / (b :: t).sum =
            c / (a :: b :: t).sum := by
          rw [mul_div_assoc, div_div, mul_comm ((a :: b :: t).sum) ((b :: t).sum),
            ← div_div, div_self hTne, mul_one_div]
        rw [hone, hcoef]

lemma back_fwd_simplex {x : List ℝ} (hlen : 2 ≤ x.length)
    (hpos : ∀ v ∈ x, 0 < v) (hsum : x.sum = 1) :
    StickBreaking.backward (StickBreaking.forward x) = x := by
  have hxne : x ≠ [] := by
    intro h
    rw [h] at hlen
    simp at hlen
  have hfl : (StickBreaking.forward x).length = x.length - 1 := forward_length x
  have hfne : StickBreaking.forward x ≠ [] := by
    intro h
    rw [h] at hfl
    simp only [List.length_nil] at hfl
    omega
  rw [backward_eq_sbT _ hfne, sbT_z_forward x hpos 1 hxne, hsum]
  simp

lemma fwd_back : ∀ (y : List ℝ),
    StickBreaking.forward (StickBreaking.backward y) = y
  | [] => by rw [backward_nil, forward_nil]
  | a :: t => by
      rw [backward_eq_sbT _ (by simp), z_cons, sbT_cons, one_mul, one_mul]
      obtain ⟨r, rs, hr⟩ : ∃ r rs,
          sbT (1 - sigmoid (a + eqShare (t.length + 1) 0)) (StickBreaking.z t) =
            r :: rs := by
        cases h : sbT (1 - sigmoid (a + eqShare (t.length + 1) 0))
            (StickBreaking.z t) with
        | nil => exact absurd h (sbT_ne_nil _ _)
        | cons r rs => exact ⟨r, rs, rfl⟩
      rw [hr, forward_cons_cons]
      have hsum1 : (sigmoid (a + eqShare (t.length + 1) 0) :: r :: rs).sum = 1 := by
        have h1 := sbT_sum (1 - sigmoid (a + eqShare (t.length + 1) 0))
          (StickBreaking.z t)
        rw [hr] at h1
        rw [List.sum_cons, h1]
        ring
      have hlenrs : rs.length = t.length := by
        have h2 := sbT_length (1 - sigmoid (a + eqShare (t.length + 1) 0))
          (StickBreaking.z t)
        rw [hr] at h2
        simp [z_length] at h2
        exact h2
      rw [hsum1, hlenrs, div_one, logit_sigmoid]
      congr 1
      · ring
      · rw [← hr]
        have hz1 : (1 : ℝ) - sigmoid (a + eqShare (t.length + 1) 0) ≠ 0 := by
          have := sigmoid_lt_one (a + eqShare (t.length + 1) 0)
          exact ne_of_gt (by linarith)
        have hsmul : sbT (1 - sigmoid (a + eqShare (t.length + 1) 0))
            (StickBreaking.z t) =
            (sbT 1 (StickBreaking.z t)).map
              (fun v => (1 - sigmoid (a + eqShare (t.length + 1) 0)) * v) := by
          rw [← sbT_smul, mul_one]
        rw [hsmul, forward_map_smul _ _ hz1]
        cases t with
        | nil =>
            rw [z_nil]
            have h0 : sbT 1 ([] : List ℝ) = [1 * 1] := rfl
            rw [h0, forward_singleton]
        | cons b ts =>
            rw [← backward_eq_sbT (b :: ts) (by simp)]
            exact fwd_back (b :: ts)

/-- Counterexample to claim C2 as stated: the Circular round-trip fails on
the full real line, its declared domain.  At `x = 2π` the identity forward
map followed by the wrapping backward map returns `0`, not `2π`. -/
theorem C2_counterexample :
    Circular.backward (Circular.forward (2 * Real.pi)) ≠ 2 * Real.pi := by
  unfold Circular.forward Circular.backward
  rw [Real.sin_two_pi, Real.cos_two_pi]
  unfold arctan2
  norm_num [Real.arctan_zero, Real.pi_ne_zero]

/-- Claim C2 (amended: the Circular round-trips hold on the fundamental
domain `(-π, π]` only, and the StickBreaking `backward ∘ forward` direction
requires a simplex input of length at least 2): round-trip identities for
Log, LogOdds, Interval, StickBreaking and Circular. -/
theorem C2_roundtrips :
    (∀ x : ℝ, 0 < x → Log.backward (Log.forward x) = x) ∧
    (∀ y : ℝ, Log.forward (Log.backward y) = y) ∧
    (∀ x : ℝ, 0 < x → x < 1 → LogOdds.backward (LogOdds.forward x) = x) ∧
    (∀ y : ℝ, LogOdds.forward (LogOdds.backward y) = y) ∧
    (∀ a b x : ℝ, a < x → x < b →
      Interval.backward a b (Interval.forward a b x) = x) ∧
    (∀ a b y : ℝ, a < b → Interval.forward a b (Interval.backward a b y) = y) ∧
    (∀ x : List ℝ, 2 ≤ x.length → (∀ v ∈ x, 0 < v) → x.sum = 1 →
      StickBreaking.backward (StickBreaking.forward x) = x) ∧
    (∀ y : List ℝ, StickBreaking.forward (StickBreaking.backward y) = y) ∧
    (∀ x : ℝ, -Real.pi < x → x ≤ Real.pi →
      Circular.backward (Circular.forward x) = x) ∧
    (∀ y : ℝ, -Real.pi < y → y ≤ Real.pi →
      Circular.forward (Circular.backward y) = y) := by
  refine ⟨fun x hx => log_back_fwd hx, log_fwd_back,
    fun x h0 h1 => logodds_back_fwd h0 h1, logodds_fwd_back,
    fun a b x hax hxb => interval_back_fwd hax hxb,
    fun a b y hab => interval_fwd_back hab y,
    fun x hl hp hs => back_fwd_simplex hl hp hs,
    fwd_back,
    fun x h1 h2 => circular_roundtrip h1 h2,
    fun y h1 h2 => arctan2_sin_cos h1 h2⟩

/-- Concrete instantiation of `C2_roundtrips`. -/
theorem C2_witness : (0 : ℝ) < 1 ∧ Log.backward (Log.forward 1) = 1 :=
  ⟨by norm_num, C2_roundtrips.1 1 (by norm_num)⟩

/-- Counterexample to claim C4 as stated: for the one-point simplex
`x = [1]` (`K = 1`), `forward` returns the empty vector and `backward`
returns the empty vector again, so the round trip does not reconstruct
`x`. -/
theorem C4_counterexample :
    StickBreaking.backward (StickBreaking.forward [(1 : ℝ)]) ≠ [(1 : ℝ)] := by
  rw [forward_singleton, backward_nil]
  simp

/-- Claim C4 (amended: requires `K ≥ 2`): for a strictly positive simplex
vector of length at least 2, `forward` has length `K - 1` and
`backward (forward x)` reconstructs `x`, whose sum is again 1. -/
theorem C4_simplex_roundtrip (x : List ℝ) (hlen : 2 ≤ x.length)
    (hpos : ∀ v ∈ x, 0 < v) (hsum : x.sum = 1) :
    (StickBreaking.forward x).length = x.length - 1 ∧
    StickBreaking.backward (StickBreaking.forward x) = x ∧
    (StickBreaking.backward (StickBreaking.forward x)).sum = 1 := by
  refine ⟨forward_length x, back_fwd_simplex hlen hpos hsum, ?_⟩
  rw [back_fwd_simplex hlen hpos hsum, hsum]

/-- Concrete instantiation of `C4_simplex_roundtrip`. -/
theorem C4_witness :
    (2 ≤ ([(1 : ℝ) / 2, 1 / 2] : List ℝ).length ∧
      (∀ v ∈ ([(1 : ℝ) / 2, 1 / 2] : List ℝ), 0 < v) ∧
      ([(1 : ℝ) / 2, 1 / 2] : List ℝ).sum = 1) ∧
    StickBreaking.backward (StickBreaking.forward [(1 : ℝ) / 2, 1 / 2]) =
      [(1 : ℝ) / 2, 1 / 2] :=
  ⟨⟨by norm_num, by norm_num, by norm_num⟩,
    (C4_simplex_roundtrip [(1 : ℝ) / 2, 1 / 2] (by norm_num) (by norm_num)
      (by norm_num)).2.1⟩
